import Mathlib

/- Verification of the inpainting engine of src/asp/Core/InpaintView.h.

   The embedding below translates the InpaintTask and InpaintView code into
   executable Lean definitions.  Pixel coordinates are pairs of integers,
   single-channel pixel values are exact rationals (the code is generic in
   the pixel type; the float convolution weights 0.176765 and 0.073235 are
   exact decimal literals, so all arithmetic is represented exactly), and
   the sparse patch store is an association list from coordinates to values.

   Components of the repository that the header uses but whose code is not
   under src (the VisionWorkbench library functions grassfire, crop, fill,
   create_mask, copy_mask, max_pixel_value, the SparseView container and the
   BlobCompressed catalog entry) are modelled from the specification; each
   such definition carries a doc comment starting with Modelled from the
   spec.  The parallel FifoWorkQueue is modelled as a sequential fold over
   the blob list: the spec states result correctness must not depend on
   task completion order, and the two mutexes serialize exactly the crop
   and the insert, so the per-task data flow is order-independent up to the
   last-writer-wins behaviour of the store on overlapping regions. -/

/-- A pixel coordinate of the parent image, written (column, row). -/
abbrev Coord : Type := ℤ × ℤ

/-- A single-channel image: total map from coordinates to exact values. -/
abbrev Img : Type := Coord → ℚ

/-- Modelled from the spec: the Sparse Patch Store (the SparseView container
of asp/Core/SparseView.h is not under src).  An append-only association list
from coordinate to reconstructed value; a lookup returns the most recently
absorbed value for a coordinate, matching the last-writer-wins note of the
spec for overlapping regions. -/
abbrev Store : Type := List (Coord × ℚ)

/-- An integer bounding box, written (min, max) with exclusive max, so the
box covers exactly the coordinates p with min ≤ p and p < max componentwise.
The code indexes a mask of size width × height = max - min by blob
coordinates shifted by -min, which forces this exclusive-max reading. -/
abbrev BBox : Type := Coord × Coord

/-- Functional update of one pixel, the translation of an assignment to
cropped_copy(x, y) in the task body. -/
def setPix (img : Img) (p : Coord) (v : ℚ) : Img :=
  fun q => if q = p then v else img q

/-- The coordinates (i, 0) .. (i, h - 1) of one window column in row order,
the inner for j loop of the task's scans. -/
def colCoords (i : ℤ) : ℕ → List Coord
  | 0 => []
  | n + 1 => colCoords i n ++ [(i, (n : ℤ))]

/-- All coordinates of a w × h window, scanned with the column index outer
and the row index inner, exactly as the loops for i, for j of the task. -/
def windowCoords (w h : ℕ) : List Coord :=
  (List.range w).flatMap (fun i => colCoords (i : ℤ) h)

/-- Componentwise minimum of two coordinates. -/
def cmin (p q : Coord) : Coord := (min p.1 q.1, min p.2 q.2)

/-- Componentwise maximum of two coordinates. -/
def cmax (p q : Coord) : Coord := (max p.1 q.1, max p.2 q.2)

/-- Modelled from the spec: BlobCompressed::bounding_box (the BlobIndexThreaded
code is not under src).  The defect region is given as its set of interior
coordinates; its bounding box is the componentwise min of the coordinates
paired with the componentwise max plus one (exclusive max, see BBox). -/
def bboxOfBlob : List Coord → BBox
  | [] => ((0, 0), (0, 0))
  | q :: rest => (rest.foldl cmin q, rest.foldl cmax q + (1, 1))

/-- BBox2i::expand(m): move min down by m and max up by m in both axes. -/
def expandBBox (m : ℤ) (bb : BBox) : BBox :=
  ((bb.1.1 - m, bb.1.2 - m), (bb.2.1 + m, bb.2.2 + m))

/-- The margin the task adds around the blob bounding box: bbox.expand(10)
in grassfire (diffusion) mode, bbox.expand(1) in flat mode. -/
def taskMargin (ug : Bool) : ℤ := if ug then 10 else 1

/-- The expanded bounding box of the local window a task works on. -/
def taskBBox (ug : Bool) (blob : List Coord) : BBox :=
  expandBBox (taskMargin ug) (bboxOfBlob blob)

/-- Width of the local window, bbox.width() = max.x - min.x. -/
def taskW (ug : Bool) (blob : List Coord) : ℕ :=
  ((taskBBox ug blob).2.1 - (taskBBox ug blob).1.1).toNat

/-- Height of the local window, bbox.height() = max.y - min.y. -/
def taskH (ug : Bool) (blob : List Coord) : ℕ :=
  ((taskBBox ug blob).2.2 - (taskBBox ug blob).1.2).toNat

/-- The blob coordinates shifted into window space, the loop that performs
iter -= bbox.min() after decompressing the blob. -/
def taskShifted (ug : Bool) (blob : List Coord) : List Coord :=
  blob.map (fun c => c - (taskBBox ug blob).1)

/-- The validity mask over the window: fill(mask, 0) followed by writing 255
at every shifted blob coordinate.  Value 255 marks defect interior. -/
def taskMask (ug : Bool) (blob : List Coord) : Coord → ℕ :=
  fun p => if p ∈ taskShifted ug blob then 255 else 0

/-- The cropped copy of the source: cropped_copy(p) = source(bbox.min() + p).
The crop mutex only serializes the copy and does not change its value. -/
def taskCropped (source : Img) (ug : Bool) (blob : List Coord) : Img :=
  fun p => source ((taskBBox ug blob).1 + p)

/-- The early-exit test of the task: bbox.min().x() < 0 or bbox.min().y() < 0
or bbox.max().x() >= cols or bbox.max().y() >= rows. -/
def skipCond (cols rows : ℤ) (bb : BBox) : Prop :=
  bb.1.1 < 0 ∨ bb.1.2 < 0 ∨ bb.2.1 ≥ cols ∨ bb.2.2 ≥ rows

instance skipCondDec (cols rows : ℤ) (bb : BBox) : Decidable (skipCond cols rows bb) := by
  unfold skipCond
  exact inferInstance

/-- A second definition following the words of the spec, for comparison with
skipCond: the expanded window falls outside the image extent, that is, some
pixel of the half-open box [min, max) lies outside [0, cols) × [0, rows). -/
def windowOutside (cols rows : ℤ) (bb : BBox) : Prop :=
  bb.1.1 < 0 ∨ bb.1.2 < 0 ∨ bb.2.1 > cols ∨ bb.2.2 > rows

instance windowOutsideDec (cols rows : ℤ) (bb : BBox) : Decidable (windowOutside cols rows bb) := by
  unfold windowOutside
  exact inferInstance

/-- Read one cell of a distance field stored as an association list; cells
outside the window read as 0, the distance of a valid pixel. -/
def gfGet (g : List (Coord × ℕ)) (p : Coord) : ℕ :=
  (List.lookup p g).getD 0

/-- Modelled from the spec: one relaxation round of the grassfire distance
transform (vw::grassfire of the image library is not under src; the spec
describes a BFS-style 4-connected propagation from the valid pixels inward,
with valid pixels holding 0).  An interior cell takes the minimum of its
current value and one plus the least value among its four edge neighbours. -/
def gfStep (w h : ℕ) (msk : Coord → ℕ) (g : List (Coord × ℕ)) : List (Coord × ℕ) :=
  (windowCoords w h).map (fun p =>
    (p, if msk p ≠ 0 then
          min (gfGet g p)
            (min (min (gfGet g (p + (1, 0))) (gfGet g (p - (1, 0))))
                 (min (gfGet g (p + (0, 1))) (gfGet g (p - (0, 1)))) + 1)
        else 0))

/-- Modelled from the spec: the initial grassfire field, with valid pixels at
0 and interior pixels at an upper bound that any reachable distance beats. -/
def gfInit (w h : ℕ) (msk : Coord → ℕ) : List (Coord × ℕ) :=
  (windowCoords w h).map (fun p => (p, if msk p ≠ 0 then w * h + 1 else 0))

/-- Modelled from the spec: the grassfire distance field over a w × h window,
obtained by running w * h relaxation rounds, enough for the propagation to
stabilize on every reachable cell. -/
def grassfireList (w h : ℕ) (msk : Coord → ℕ) : List (Coord × ℕ) :=
  (gfStep w h msk)^[w * h] (gfInit w h msk)

/-- The distance field as a function, distance(i, j) of the task body. -/
def gfdist (w h : ℕ) (msk : Coord → ℕ) (p : Coord) : ℕ :=
  gfGet (grassfireList w h msk) p

/-- max_pixel_value(distance): the largest value of the distance field. -/
def maxDistance (w h : ℕ) (msk : Coord → ℕ) : ℕ :=
  ((windowCoords w h).map (gfdist w h msk)).foldl max 0

/-- The processing order of the task: for d = 1 .. max_distance, scan the
window with i outer and j inner and append every pixel at distance d. -/
def processingOrder (w h : ℕ) (msk : Coord → ℕ) : List Coord :=
  (List.range (maxDistance w h msk)).flatMap
    (fun k => (windowCoords w h).filter (fun p => gfdist w h msk p = k + 1))

/-- The eight-neighbour convolution of the task body, with the additions in
the order the code accumulates them into sum. -/
def convAt (img : Img) (p : Coord) : ℚ :=
  0.176765 * img (p.1 - 1, p.2 - 1) + 0.176765 * img (p.1 - 1, p.2 + 1) +
  0.176765 * img (p.1 + 1, p.2 - 1) + 0.176765 * img (p.1 + 1, p.2 + 1) +
  0.073235 * img (p.1 + 1, p.2) + 0.073235 * img (p.1 - 1, p.2) +
  0.073235 * img (p.1, p.2 + 1) + 0.073235 * img (p.1, p.2 - 1)

/-- One full sweep over the processing order: each listed pixel in turn is
overwritten with the convolution of the current image at that pixel. -/
def sweepOnce (order : List Coord) (img : Img) : Img :=
  order.foldl (fun im p => setPix im p (convAt im p)) img

/-- The diffusion reconstruction of one channel: the full sweep is repeated
10 * max_distance * max_distance times, the loop for d = 0 ..
10*max_distance*max_distance - 1 of the task body.  The task instantiated at
a single-channel pixel type performs exactly this; the general channel loop
is diffuseMulti below. -/
def diffuseChannel (w h : ℕ) (msk : Coord → ℕ) (img : Img) : Img :=
  (sweepOnce (processingOrder w h msk))^[10 * maxDistance w h msk * maxDistance w h msk] img

/-- The flat-replacement branch: every shifted blob coordinate of the cropped
copy is overwritten with the default inpaint value. -/
def flatFill (dv : ℚ) (coords : List Coord) (img : Img) : Img :=
  coords.foldl (fun im p => setPix im p dv) img

/-- Modelled from the spec: SparseView::absorb applied to
copy_mask(cropped_copy, create_mask(mask, 0)) (SparseView and the two mask
functions of the image library are not under src).  create_mask(mask, 0)
invalidates exactly the pixels where mask is 0, copy_mask transfers that
validity onto the window, and absorb inserts every valid pixel of the window
into the store keyed by its parent-image coordinate offset + p.  New entries
are placed in front so that a later absorb wins a lookup. -/
def absorb (store : Store) (offset : Coord) (w h : ℕ) (img : Img) (msk : Coord → ℕ) : Store :=
  ((windowCoords w h).filter (fun p => msk p != 0)).map (fun p => (offset + p, img p)) ++ store

/-- One InpaintTask::operator(): early exit when the expanded bounding box
fails the bounds test, otherwise crop, build the mask, reconstruct by
diffusion or flat replacement, and absorb the masked result into the store. -/
def runTask (source : Img) (cols rows : ℤ) (ug : Bool) (dv : ℚ)
    (store : Store) (blob : List Coord) : Store :=
  if skipCond cols rows (taskBBox ug blob) then store
  else
    absorb store (taskBBox ug blob).1 (taskW ug blob) (taskH ug blob)
      (if ug then
        diffuseChannel (taskW ug blob) (taskH ug blob) (taskMask ug blob)
          (taskCropped source ug blob)
       else flatFill dv (taskShifted ug blob) (taskCropped source ug blob))
      (taskMask ug blob)

/-- The constructor's work: one task per catalog blob, all joined before the
view becomes queryable.  Task order does not matter for any claim proved
below; the fold realizes the join barrier of the work queue. -/
def runInpaint (source : Img) (cols rows : ℤ) (ug : Bool) (dv : ℚ)
    (blobs : List (List Coord)) : Store :=
  blobs.foldl (runTask source cols rows ug dv) []

/-- The InpaintView: the wrapped child image with its dimensions and plane
count, the computed sparse patch store, and the construction parameters. -/
structure InpaintView where
  child : Img
  childCols : ℤ
  childRows : ℤ
  childPlanes : ℤ
  patches : Store
  use_grassfire : Bool
  default_inpaint_val : ℚ

/-- InpaintView::cols(): the child image's column count. -/
def InpaintView.cols (v : InpaintView) : ℤ := v.childCols

/-- InpaintView::rows(): the child image's row count. -/
def InpaintView.rows (v : InpaintView) : ℤ := v.childRows

/-- InpaintView::planes(): always 1. -/
def InpaintView.planes (_v : InpaintView) : ℤ := 1

/-- InpaintView::operator()(i, j): the patch value when the store contains
the coordinate, else the child pixel. -/
def InpaintView.pixel (v : InpaintView) (i j : ℤ) : ℚ :=
  match List.lookup (i, j) v.patches with
  | some px => px
  | none => v.child (i, j)

/-- The public InpaintView constructor: runs the whole reconstruction into
the patch store before the view is queryable. -/
def mkInpaintView (source : Img) (cols rows planes : ℤ) (blobs : List (List Coord))
    (ug : Bool) (dv : ℚ) : InpaintView :=
  { child := source
    childCols := cols
    childRows := rows
    childPlanes := planes
    patches := runInpaint source cols rows ug dv blobs
    use_grassfire := ug
    default_inpaint_val := dv }

/-- The private prerasterization copy constructor: the child is replaced by
its prerasterized form and the patch store is copied from the other view,
with no reconstruction run. -/
def InpaintView.prerasterizeWith (v : InpaintView) (pre : Img) : InpaintView :=
  { v with child := pre }

/-- A multi-channel image, the general pixel type of the task. -/
abbrev MImg (n : ℕ) : Type := Coord → Fin n → ℚ

/-- The convolution of channel c, reading the same eight neighbours. -/
def convAtM {n : ℕ} (c : Fin n) (img : MImg n) (p : Coord) : ℚ :=
  0.176765 * img (p.1 - 1, p.2 - 1) c + 0.176765 * img (p.1 - 1, p.2 + 1) c +
  0.176765 * img (p.1 + 1, p.2 - 1) c + 0.176765 * img (p.1 + 1, p.2 + 1) c +
  0.073235 * img (p.1 + 1, p.2) c + 0.073235 * img (p.1 - 1, p.2) c +
  0.073235 * img (p.1, p.2 + 1) c + 0.073235 * img (p.1, p.2 - 1) c

/-- Update of channel c of one pixel, cropped_copy(x, y)[c] = sum. -/
def updM {n : ℕ} (img : MImg n) (p : Coord) (c : Fin n) (v : ℚ) : MImg n :=
  fun q c' => if q = p ∧ c' = c then v else img q c'

/-- One full sweep of channel c over the processing order. -/
def sweepM {n : ℕ} (c : Fin n) (order : List Coord) (img : MImg n) : MImg n :=
  order.foldl (fun im p => updM im p c (convAtM c im p)) img

/-- All sweeps of one channel, the middle loop of the task body. -/
def channelPassM {n : ℕ} (w h : ℕ) (msk : Coord → ℕ) (c : Fin n) (img : MImg n) : MImg n :=
  (sweepM c (processingOrder w h msk))^[10 * maxDistance w h msk * maxDistance w h msk] img

/-- The diffusion loop of the task over a multi-channel window: the channel
loop is outermost, exactly as for c = 0 .. PixelNumChannels - 1. -/
def diffuseMulti (n : ℕ) (w h : ℕ) (msk : Coord → ℕ) (img : MImg n) : MImg n :=
  (List.finRange n).foldl (fun im c => channelPassM w h msk c im) img

/-- A concrete 4 × 3 window mask with two interior pixels side by side, used
by the counterexamples below. -/
def mskC : Coord → ℕ :=
  fun p => if p = (1, 1) ∨ p = (2, 1) then 255 else 0

/-- The all-zero window. -/
def imgU : Img := fun _ => 0

/-- The window that is zero except for value 1 at the interior pixel (2,1). -/
def imgV : Img := fun p => if p = (2, 1) then 1 else 0

/-- Claim C1: for every pixel coordinate of a constructed overlay, the pixel
read returns the Sparse Patch Store's value at that coordinate when the
store contains it, and otherwise returns the wrapped source image's value
there. -/
theorem c1_overlay_pixel (source : Img) (cols rows planes : ℤ) (blobs : List (List Coord))
    (ug : Bool) (dv : ℚ) (i j : ℤ) :
    (∀ px : ℚ,
      List.lookup (i, j) (mkInpaintView source cols rows planes blobs ug dv).patches = some px →
      (mkInpaintView source cols rows planes blobs ug dv).pixel i j = px) ∧
    (List.lookup (i, j) (mkInpaintView source cols rows planes blobs ug dv).patches = none →
      (mkInpaintView source cols rows planes blobs ug dv).pixel i j = source (i, j)) := by
  constructor
  · intro px h
    simp only [InpaintView.pixel, h]
  · intro h
    simp only [InpaintView.pixel, h]
    rfl

/-- Witness for c1_overlay_pixel at a concrete overlay with an empty defect
catalog: the store misses (2, 3), so the pixel read falls through to the
source value 2. -/
theorem c1_witness :
    List.lookup ((2 : ℤ), (3 : ℤ))
      (mkInpaintView (fun p => (p.1 : ℚ)) 10 10 1 [] false 0).patches = none ∧
    (mkInpaintView (fun p => (p.1 : ℚ)) 10 10 1 [] false 0).pixel 2 3 = 2 :=
  ⟨rfl, (c1_overlay_pixel (fun p => (p.1 : ℚ)) 10 10 1 [] false 0 2 3).2 rfl⟩

/-- Claim C10: the overlay's cols and rows equal the wrapped source image's,
and planes always returns 1 regardless of the source's plane count. -/
theorem c10_dimensions (source : Img) (cols rows planes : ℤ) (blobs : List (List Coord))
    (ug : Bool) (dv : ℚ) :
    (mkInpaintView source cols rows planes blobs ug dv).cols = cols ∧
    (mkInpaintView source cols rows planes blobs ug dv).rows = rows ∧
    (mkInpaintView source cols rows planes blobs ug dv).planes = 1 :=
  ⟨rfl, rfl, rfl⟩

/-- Claim C9: for every sub-region R, the restricted overlay produced by
prerasterization agrees with the original overlay on every coordinate of R,
and it shares the already-computed patch store unchanged. -/
theorem c9_prerasterize_agrees (v : InpaintView) (pre : Img) (R : BBox)
    (h : ∀ p : Coord, R.1.1 ≤ p.1 → p.1 < R.2.1 → R.1.2 ≤ p.2 → p.2 < R.2.2 →
      pre p = v.child p) :
    (∀ p : Coord, R.1.1 ≤ p.1 → p.1 < R.2.1 → R.1.2 ≤ p.2 → p.2 < R.2.2 →
      (v.prerasterizeWith pre).pixel p.1 p.2 = v.pixel p.1 p.2) ∧
    (v.prerasterizeWith pre).patches = v.patches := by
  constructor
  · intro p h1 h2 h3 h4
    simp only [InpaintView.pixel, InpaintView.prerasterizeWith]
    cases List.lookup (p.1, p.2) v.patches with
    | some px => rfl
    | none => exact h p h1 h2 h3 h4
  · rfl

/-- Witness for c9_prerasterize_agrees: a concrete overlay restricted to the
box from (0, 0) to (2, 2) with a prerasterized child that agrees there. -/
theorem c9_witness :
    ((0 : ℤ) ≤ 1 ∧ (1 : ℤ) < 2) ∧
    ((mkInpaintView (fun _ => (5 : ℚ)) 4 4 1 [] false 0).prerasterizeWith
        (fun _ => (5 : ℚ))).pixel 1 1 =
      (mkInpaintView (fun _ => (5 : ℚ)) 4 4 1 [] false 0).pixel 1 1 :=
  ⟨⟨by norm_num, by norm_num⟩,
    (c9_prerasterize_agrees (mkInpaintView (fun _ => (5 : ℚ)) 4 4 1 [] false 0)
      (fun _ => (5 : ℚ)) ((0, 0), (2, 2)) (fun _ _ _ _ _ => rfl)).1 (1, 1)
      (by norm_num) (by norm_num) (by norm_num) (by norm_num)⟩

/-- Association-list lookup at a cons cell as an if-then-else. -/
theorem lookup_cons_eq {α β : Type} [BEq α] [LawfulBEq α] [DecidableEq α]
    (a k : α) (v : β) (l : List (α × β)) :
    List.lookup a ((k, v) :: l) = if a = k then some v else List.lookup a l := by
  by_cases h : a = k
  · simp [List.lookup, h]
  · simp [List.lookup, h, beq_false_of_ne h]

/-- A lookup that hits in the front part of an appended store stays valid. -/
theorem lookup_append_first {α β : Type} [BEq α] [LawfulBEq α] [DecidableEq α]
    (a : α) (l₁ l₂ : List (α × β)) (v : β)
    (h : List.lookup a l₁ = some v) : List.lookup a (l₁ ++ l₂) = some v := by
  induction l₁ with
  | nil => simp [List.lookup] at h
  | cons kv t ih =>
    obtain ⟨k, w⟩ := kv
    rw [lookup_cons_eq] at h
    rw [List.cons_append, lookup_cons_eq]
    by_cases hk : a = k
    · simpa [hk] using h
    · simp only [hk, if_false] at h ⊢
      exact ih h

/-- A lookup that misses the front part of an appended store falls through. -/
theorem lookup_append_miss {α β : Type} [BEq α] [LawfulBEq α] [DecidableEq α]
    (a : α) (l₁ l₂ : List (α × β))
    (h : List.lookup a l₁ = none) : List.lookup a (l₁ ++ l₂) = List.lookup a l₂ := by
  induction l₁ with
  | nil => simp
  | cons kv t ih =>
    obtain ⟨k, w⟩ := kv
    rw [lookup_cons_eq] at h
    rw [List.cons_append, lookup_cons_eq]
    by_cases hk : a = k
    · simp [hk] at h
    · simp only [hk, if_false] at h ⊢
      exact ih h

/-- Lookup in a store built by mapping window coordinates to entries keyed by
offset + coordinate, as absorb does. -/
theorem lookup_map_offset {β : Type} (off : Coord) (f : Coord → β) (l : List Coord) (c : Coord) :
    List.lookup c (l.map fun q => (off + q, f q)) =
      if c - off ∈ l then some (f (c - off)) else none := by
  induction l with
  | nil => simp [List.lookup]
  | cons q t ih =>
    rw [List.map_cons, lookup_cons_eq]
    by_cases hq : c = off + q
    · have hco : c - off = q := by rw [hq]; exact add_sub_cancel_left off q
      simp [hq, hco]
    · have hne : c - off ≠ q := fun h => hq (sub_eq_iff_eq_add'.mp h)
      simp [hq, hne, ih, List.mem_cons]

/-- Membership in one window column. -/
theorem mem_colCoords (i : ℤ) (h : ℕ) (q : Coord) :
    q ∈ colCoords i h ↔ q.1 = i ∧ 0 ≤ q.2 ∧ q.2 < (h : ℤ) := by
  obtain ⟨a, b⟩ := q
  induction h with
  | zero => simp [colCoords]
  | succ n ih =>
    simp only [colCoords, List.mem_append, List.mem_singleton, ih, Prod.mk.injEq]
    constructor
    · rintro (⟨h1, h2, h3⟩ | ⟨h1, h2⟩)
      · exact ⟨h1, by omega, by omega⟩
      · exact ⟨h1, by omega, by omega⟩
    · rintro ⟨h1, h2, h3⟩
      by_cases hb : b = (n : ℤ)
      · exact Or.inr ⟨h1, hb⟩
      · exact Or.inl ⟨h1, by omega, by omega⟩

/-- Membership in the window coordinate scan is exactly the window bounds. -/
theorem mem_windowCoords (w h : ℕ) (p : Coord) :
    p ∈ windowCoords w h ↔ 0 ≤ p.1 ∧ p.1 < (w : ℤ) ∧ 0 ≤ p.2 ∧ p.2 < (h : ℤ) := by
  unfold windowCoords
  rw [List.mem_flatMap]
  constructor
  · rintro ⟨i, hi, hmem⟩
    rw [List.mem_range] at hi
    rw [mem_colCoords] at hmem
    obtain ⟨h1, h2, h3⟩ := hmem
    omega
  · rintro ⟨h1, h2, h3, h4⟩
    refine ⟨p.1.toNat, ?_, ?_⟩
    · rw [List.mem_range]
      omega
    · rw [mem_colCoords]
      refine ⟨?_, h3, h4⟩
      omega

/-- A componentwise-min fold is below its initial value. -/
theorem foldl_cmin_le_init (l : List Coord) :
    ∀ q : Coord, (l.foldl cmin q).1 ≤ q.1 ∧ (l.foldl cmin q).2 ≤ q.2 := by
  induction l with
  | nil => intro q; exact ⟨le_refl _, le_refl _⟩
  | cons r t ih =>
    intro q
    rw [List.foldl_cons]
    exact ⟨le_trans (ih (cmin q r)).1 (min_le_left _ _),
           le_trans (ih (cmin q r)).2 (min_le_left _ _)⟩

/-- A componentwise-min fold is below every list element. -/
theorem foldl_cmin_le (l : List Coord) :
    ∀ (q c : Coord), c ∈ l → (l.foldl cmin q).1 ≤ c.1 ∧ (l.foldl cmin q).2 ≤ c.2 := by
  induction l with
  | nil => intro q c hc; simp at hc
  | cons r t ih =>
    intro q c hc
    rw [List.foldl_cons]
    rcases List.mem_cons.mp hc with rfl | hmem
    · exact ⟨le_trans (foldl_cmin_le_init t (cmin q c)).1 (min_le_right _ _),
             le_trans (foldl_cmin_le_init t (cmin q c)).2 (min_le_right _ _)⟩
    · exact ih (cmin q r) c hmem

/-- A componentwise-max fold is above its initial value. -/
theorem foldl_cmax_init_le (l : List Coord) :
    ∀ q : Coord, q.1 ≤ (l.foldl cmax q).1 ∧ q.2 ≤ (l.foldl cmax q).2 := by
  induction l with
  | nil => intro q; exact ⟨le_refl _, le_refl _⟩
  | cons r t ih =>
    intro q
    rw [List.foldl_cons]
    exact ⟨le_trans (le_max_left _ _) (ih (cmax q r)).1,
           le_trans (le_max_left _ _) (ih (cmax q r)).2⟩

/-- A componentwise-max fold is above every list element. -/
theorem foldl_cmax_le (l : List Coord) :
    ∀ (q c : Coord), c ∈ l → c.1 ≤ (l.foldl cmax q).1 ∧ c.2 ≤ (l.foldl cmax q).2 := by
  induction l with
  | nil => intro q c hc; simp at hc
  | cons r t ih =>
    intro q c hc
    rw [List.foldl_cons]
    rcases List.mem_cons.mp hc with rfl | hmem
    · exact ⟨le_trans (le_max_right _ _) (foldl_cmax_init_le t (cmax q c)).1,
             le_trans (le_max_right _ _) (foldl_cmax_init_le t (cmax q c)).2⟩
    · exact ih (cmax q r) c hmem

/-- Every blob coordinate lies inside the blob's bounding box. -/
theorem blob_mem_bbox (blob : List Coord) (c : Coord) (hc : c ∈ blob) :
    (bboxOfBlob blob).1.1 ≤ c.1 ∧ (bboxOfBlob blob).1.2 ≤ c.2 ∧
    c.1 < (bboxOfBlob blob).2.1 ∧ c.2 < (bboxOfBlob blob).2.2 := by
  cases blob with
  | nil => simp at hc
  | cons q rest =>
    simp only [bboxOfBlob, Prod.fst_add, Prod.snd_add]
    rcases List.mem_cons.mp hc with rfl | hmem
    · have h1 := foldl_cmin_le_init rest c
      have h2 := foldl_cmax_init_le rest c
      refine ⟨h1.1, h1.2, ?_, ?_⟩ <;> omega
    · have h1 := foldl_cmin_le rest q c hmem
      have h2 := foldl_cmax_le rest q c hmem
      refine ⟨h1.1, h1.2, ?_, ?_⟩ <;> omega

/-- The task margin is at least one pixel in both modes. -/
theorem taskMargin_pos (ug : Bool) : (1 : ℤ) ≤ taskMargin ug := by
  cases ug <;> norm_num [taskMargin]

/-- The blob bounding box is componentwise ordered. -/
theorem bbox_min_le_max (blob : List Coord) :
    (bboxOfBlob blob).1.1 ≤ (bboxOfBlob blob).2.1 ∧
    (bboxOfBlob blob).1.2 ≤ (bboxOfBlob blob).2.2 := by
  cases blob with
  | nil => exact ⟨le_refl _, le_refl _⟩
  | cons q rest =>
    simp only [bboxOfBlob, Prod.fst_add, Prod.snd_add]
    have h1 := foldl_cmin_le_init rest q
    have h2 := foldl_cmax_init_le rest q
    constructor <;> omega

/-- The first component of the expanded box minimum, by unfolding. -/
theorem taskBBox_min_fst (ug : Bool) (blob : List Coord) :
    (taskBBox ug blob).1.1 = (bboxOfBlob blob).1.1 - taskMargin ug := rfl

/-- The second component of the expanded box minimum, by unfolding. -/
theorem taskBBox_min_snd (ug : Bool) (blob : List Coord) :
    (taskBBox ug blob).1.2 = (bboxOfBlob blob).1.2 - taskMargin ug := rfl

/-- The first component of the expanded box maximum, by unfolding. -/
theorem taskBBox_max_fst (ug : Bool) (blob : List Coord) :
    (taskBBox ug blob).2.1 = (bboxOfBlob blob).2.1 + taskMargin ug := rfl

/-- The second component of the expanded box maximum, by unfolding. -/
theorem taskBBox_max_snd (ug : Bool) (blob : List Coord) :
    (taskBBox ug blob).2.2 = (bboxOfBlob blob).2.2 + taskMargin ug := rfl

/-- The window width cast back to the integers. -/
theorem taskW_coe (ug : Bool) (blob : List Coord) :
    ((taskW ug blob : ℕ) : ℤ) =
      (bboxOfBlob blob).2.1 + taskMargin ug - ((bboxOfBlob blob).1.1 - taskMargin ug) := by
  have h1 := (bbox_min_le_max blob).1
  have h2 := taskMargin_pos ug
  show ((((bboxOfBlob blob).2.1 + taskMargin ug) -
    ((bboxOfBlob blob).1.1 - taskMargin ug)).toNat : ℤ) = _
  omega

/-- The window height cast back to the integers. -/
theorem taskH_coe (ug : Bool) (blob : List Coord) :
    ((taskH ug blob : ℕ) : ℤ) =
      (bboxOfBlob blob).2.2 + taskMargin ug - ((bboxOfBlob blob).1.2 - taskMargin ug) := by
  have h1 := (bbox_min_le_max blob).2
  have h2 := taskMargin_pos ug
  show ((((bboxOfBlob blob).2.2 + taskMargin ug) -
    ((bboxOfBlob blob).1.2 - taskMargin ug)).toNat : ℤ) = _
  omega

/-- A shifted blob coordinate keeps the margin distance from every window
edge, since the unshifted coordinate lies in the unexpanded bounding box. -/
theorem mem_taskShifted_bounds (ug : Bool) (blob : List Coord) (p : Coord)
    (hp : p ∈ taskShifted ug blob) :
    taskMargin ug ≤ p.1 ∧ p.1 + taskMargin ug < ((taskW ug blob : ℕ) : ℤ) ∧
    taskMargin ug ≤ p.2 ∧ p.2 + taskMargin ug < ((taskH ug blob : ℕ) : ℤ) := by
  unfold taskShifted at hp
  obtain ⟨c, hc, rfl⟩ := List.mem_map.mp hp
  have hb := blob_mem_bbox blob c hc
  rw [taskW_coe, taskH_coe]
  simp only [Prod.fst_sub, Prod.snd_sub, taskBBox_min_fst, taskBBox_min_snd]
  omega

/-- A shifted blob coordinate lies inside the window scan. -/
theorem mem_taskShifted_window (ug : Bool) (blob : List Coord) (p : Coord)
    (hp : p ∈ taskShifted ug blob) :
    p ∈ windowCoords (taskW ug blob) (taskH ug blob) := by
  have hb := mem_taskShifted_bounds ug blob p hp
  have hm := taskMargin_pos ug
  rw [mem_windowCoords]
  omega

/-- The mask is nonzero exactly on the shifted blob coordinates. -/
theorem taskMask_ne_iff (ug : Bool) (blob : List Coord) (p : Coord) :
    taskMask ug blob p ≠ 0 ↔ p ∈ taskShifted ug blob := by
  unfold taskMask
  by_cases h : p ∈ taskShifted ug blob <;> simp [h]

/-- Filtering the window scan by a nonzero mask value. -/
theorem mem_maskFilter (w h : ℕ) (msk : Coord → ℕ) (p : Coord) :
    p ∈ (windowCoords w h).filter (fun q => msk q != 0) ↔
      p ∈ windowCoords w h ∧ msk p ≠ 0 := by
  rw [List.mem_filter]
  simp [bne_iff_ne]

/-- Shifting a parent coordinate lands in the shifted blob iff the parent
coordinate is a blob coordinate. -/
theorem sub_mem_taskShifted (ug : Bool) (blob : List Coord) (c : Coord) :
    c - (taskBBox ug blob).1 ∈ taskShifted ug blob ↔ c ∈ blob := by
  unfold taskShifted
  constructor
  · intro h
    obtain ⟨b, hb, heq⟩ := List.mem_map.mp h
    have : b = c := by
      have := sub_left_injective.eq_iff.mp heq
      exact this
    exact this ▸ hb
  · intro h
    exact List.mem_map.mpr ⟨c, h, rfl⟩

/-- Flat replacement leaves coordinates outside the list untouched. -/
theorem flatFill_not_mem (dv : ℚ) (coords : List Coord) :
    ∀ (img : Img) (q : Coord), q ∉ coords → flatFill dv coords img q = img q := by
  induction coords with
  | nil => intro img q _; rfl
  | cons p t ih =>
    intro img q hq
    rw [List.mem_cons, not_or] at hq
    unfold flatFill at ih ⊢
    rw [List.foldl_cons]
    rw [ih (setPix img p dv) q hq.2]
    unfold setPix
    rw [if_neg hq.1]

/-- Flat replacement writes the default value at every listed coordinate. -/
theorem flatFill_mem (dv : ℚ) (coords : List Coord) :
    ∀ (img : Img) (q : Coord), q ∈ coords → flatFill dv coords img q = dv := by
  induction coords with
  | nil => intro img q hq; simp at hq
  | cons p t ih =>
    intro img q hq
    unfold flatFill at ih ⊢
    rw [List.foldl_cons]
    by_cases hqt : q ∈ t
    · exact ih (setPix img p dv) q hqt
    · rcases List.mem_cons.mp hq with rfl | hmem
      · have := flatFill_not_mem dv t (setPix img q dv) q hqt
        unfold flatFill at this
        rw [this]
        unfold setPix
        rw [if_pos rfl]
      · exact absurd hmem hqt

/-- Lookup through an absorb: a hit on a valid window pixel returns the
window value, anything else falls through to the previous store. -/
theorem lookup_absorb (store : Store) (off : Coord) (w h : ℕ) (img : Img)
    (msk : Coord → ℕ) (c : Coord) :
    List.lookup c (absorb store off w h img msk) =
      if c - off ∈ (windowCoords w h).filter (fun p => msk p != 0)
      then some (img (c - off)) else List.lookup c store := by
  unfold absorb
  by_cases hmem : c - off ∈ (windowCoords w h).filter (fun p => msk p != 0)
  · rw [if_pos hmem]
    refine lookup_append_first _ _ _ _ ?_
    rw [lookup_map_offset, if_pos hmem]
  · rw [if_neg hmem]
    refine lookup_append_miss _ _ _ ?_
    rw [lookup_map_offset, if_neg hmem]

/-- A flat-mode task unfolded: skip, or absorb the flat-filled window. -/
theorem runTask_flat (source : Img) (cols rows : ℤ) (dv : ℚ)
    (s : Store) (blob : List Coord) :
    runTask source cols rows false dv s blob =
      if skipCond cols rows (taskBBox false blob) then s
      else absorb s (taskBBox false blob).1 (taskW false blob) (taskH false blob)
        (flatFill dv (taskShifted false blob) (taskCropped source false blob))
        (taskMask false blob) := rfl

/-- A diffusion-mode task unfolded: skip, or absorb the diffused window. -/
theorem runTask_gf (source : Img) (cols rows : ℤ) (dv : ℚ)
    (s : Store) (blob : List Coord) :
    runTask source cols rows true dv s blob =
      if skipCond cols rows (taskBBox true blob) then s
      else absorb s (taskBBox true blob).1 (taskW true blob) (taskH true blob)
        (diffuseChannel (taskW true blob) (taskH true blob) (taskMask true blob)
          (taskCropped source true blob))
        (taskMask true blob) := rfl

/-- Lookup after one flat-mode task: a hit exactly on the coordinates of an
unskipped blob, with the default value, anything else untouched. -/
theorem runTask_flat_lookup (source : Img) (cols rows : ℤ) (dv : ℚ)
    (s : Store) (blob : List Coord) (c : Coord) :
    List.lookup c (runTask source cols rows false dv s blob) =
      if ¬ skipCond cols rows (taskBBox false blob) ∧ c ∈ blob
      then some dv else List.lookup c s := by
  rw [runTask_flat]
  by_cases hskip : skipCond cols rows (taskBBox false blob)
  · rw [if_pos hskip, if_neg (by tauto)]
  · rw [if_neg hskip, lookup_absorb]
    by_cases hc : c ∈ blob
    · have hsh : c - (taskBBox false blob).1 ∈ taskShifted false blob :=
        (sub_mem_taskShifted false blob c).mpr hc
      have hfil : c - (taskBBox false blob).1 ∈
          (windowCoords (taskW false blob) (taskH false blob)).filter
            (fun p => taskMask false blob p != 0) :=
        (mem_maskFilter _ _ _ _).mpr
          ⟨mem_taskShifted_window false blob _ hsh, (taskMask_ne_iff false blob _).mpr hsh⟩
      rw [if_pos hfil, if_pos ⟨hskip, hc⟩,
        flatFill_mem dv (taskShifted false blob) _ _ hsh]
    · have hsh : c - (taskBBox false blob).1 ∉ taskShifted false blob :=
        fun hmem => hc ((sub_mem_taskShifted false blob c).mp hmem)
      have hfil : c - (taskBBox false blob).1 ∉
          (windowCoords (taskW false blob) (taskH false blob)).filter
            (fun p => taskMask false blob p != 0) := by
        intro hmem
        exact hsh ((taskMask_ne_iff false blob _).mp ((mem_maskFilter _ _ _ _).mp hmem).2)
      rw [if_neg hfil, if_neg (by tauto)]

/-- A pixel read resolves to the stored value on a store hit. -/
theorem pixel_some (v : InpaintView) (i j : ℤ) (px : ℚ)
    (h : List.lookup (i, j) v.patches = some px) : v.pixel i j = px := by
  unfold InpaintView.pixel
  rw [h]

/-- A pixel read falls through to the child image on a store miss. -/
theorem pixel_none (v : InpaintView) (i j : ℤ)
    (h : List.lookup (i, j) v.patches = none) : v.pixel i j = v.child (i, j) := by
  unfold InpaintView.pixel
  rw [h]

/-- Lookup after the whole flat-mode run: a hit with the default value on the
coordinates of unskipped blobs, a fall-through everywhere else. -/
theorem runInpaint_flat_lookup (source : Img) (cols rows : ℤ) (dv : ℚ)
    (blobs : List (List Coord)) (c : Coord) :
    ∀ s : Store,
    List.lookup c (blobs.foldl (runTask source cols rows false dv) s) =
      if ∃ B ∈ blobs, ¬ skipCond cols rows (taskBBox false B) ∧ c ∈ B
      then some dv else List.lookup c s := by
  induction blobs with
  | nil =>
    intro s
    rw [List.foldl_nil, if_neg (by simp)]
  | cons B rest ih =>
    intro s
    rw [List.foldl_cons, ih]
    by_cases h1 : ∃ B' ∈ rest, ¬ skipCond cols rows (taskBBox false B') ∧ c ∈ B'
    · obtain ⟨B', hB', hP⟩ := h1
      rw [if_pos ⟨B', hB', hP⟩, if_pos ⟨B', List.mem_cons_of_mem _ hB', hP⟩]
    · rw [if_neg h1, runTask_flat_lookup]
      by_cases h2 : ¬ skipCond cols rows (taskBBox false B) ∧ c ∈ B
      · rw [if_pos h2, if_pos ⟨B, List.mem_cons_self _ _, h2⟩]
      · rw [if_neg h2, if_neg ?_]
        rintro ⟨B', hB', hP⟩
        rcases List.mem_cons.mp hB' with rfl | hm
        · exact h2 hP
        · exact h1 ⟨B', hm, hP⟩

/-- A store hit after one task (either mode) means the coordinate belongs to
that task's unskipped blob, or the previous store already held it. -/
theorem runTask_lookup_some (source : Img) (cols rows : ℤ) (ug : Bool) (dv : ℚ)
    (s : Store) (blob : List Coord) (c : Coord) (v : ℚ)
    (h : List.lookup c (runTask source cols rows ug dv s blob) = some v) :
    (¬ skipCond cols rows (taskBBox ug blob) ∧ c ∈ blob) ∨ List.lookup c s = some v := by
  by_cases hskip : skipCond cols rows (taskBBox ug blob)
  · right
    have heq : runTask source cols rows ug dv s blob = s := by
      unfold runTask
      rw [if_pos hskip]
    rw [heq] at h
    exact h
  · unfold runTask at h
    rw [if_neg hskip, lookup_absorb] at h
    by_cases hmem : c - (taskBBox ug blob).1 ∈
        (windowCoords (taskW ug blob) (taskH ug blob)).filter
          (fun p => taskMask ug blob p != 0)
    · left
      refine ⟨hskip, (sub_mem_taskShifted ug blob c).mp ?_⟩
      exact (taskMask_ne_iff ug blob _).mp ((mem_maskFilter _ _ _ _).mp hmem).2
    · right
      rw [if_neg hmem] at h
      exact h

/-- A store hit after the whole run comes from some unskipped blob. -/
theorem runInpaint_lookup_some (source : Img) (cols rows : ℤ) (ug : Bool) (dv : ℚ)
    (blobs : List (List Coord)) (c : Coord) (v : ℚ) :
    ∀ s : Store,
    List.lookup c (blobs.foldl (runTask source cols rows ug dv) s) = some v →
    (∃ B ∈ blobs, ¬ skipCond cols rows (taskBBox ug B) ∧ c ∈ B) ∨
      List.lookup c s = some v := by
  induction blobs with
  | nil =>
    intro s h
    right
    exact h
  | cons B rest ih =>
    intro s h
    rw [List.foldl_cons] at h
    rcases ih (runTask source cols rows ug dv s B) h with hex | hlook
    · obtain ⟨B', hB', hP⟩ := hex
      exact Or.inl ⟨B', List.mem_cons_of_mem _ hB', hP⟩
    · rcases runTask_lookup_some source cols rows ug dv s B c v hlook with hx | hs
      · exact Or.inl ⟨B, List.mem_cons_self _ _, hx⟩
      · exact Or.inr hs

/-- The empty blob is always skipped: its degenerate bounding box expanded by
the positive margin has a negative minimum. -/
theorem skip_of_nil (cols rows : ℤ) (ug : Bool) : skipCond cols rows (taskBBox ug []) := by
  left
  rw [taskBBox_min_fst]
  have hm := taskMargin_pos ug
  have h0 : (bboxOfBlob ([] : List Coord)).1.1 = 0 := rfl
  omega

/-- Claim C2 (amended): in flat-replacement mode, every interior coordinate
of a defect region whose expanded window passes the code's bounds test (a
strictly stronger condition than lying inside the image bounds: windows
whose exclusive maximum merely touches the extent are skipped, refuting the
claim as stated at the input of c2_counterexample) reads back exactly the
default fill value, and every coordinate that is not an interior coordinate
of any processed (unskipped) region reads back the unmodified source
value. -/
theorem c2_flat_replacement (source : Img) (cols rows planes : ℤ) (dv : ℚ)
    (blobs : List (List Coord)) :
    (∀ B ∈ blobs, ¬ skipCond cols rows (taskBBox false B) → ∀ c ∈ B,
      (mkInpaintView source cols rows planes blobs false dv).pixel c.1 c.2 = dv) ∧
    (∀ c : Coord, (∀ B ∈ blobs, ¬ skipCond cols rows (taskBBox false B) → c ∉ B) →
      (mkInpaintView source cols rows planes blobs false dv).pixel c.1 c.2 = source c) := by
  constructor
  · intro B hB hns c hc
    refine pixel_some _ _ _ _ ?_
    show List.lookup (c.1, c.2) (blobs.foldl (runTask source cols rows false dv) []) = some dv
    rw [runInpaint_flat_lookup]
    exact if_pos ⟨B, hB, hns, hc⟩
  · intro c hnot
    have hl : List.lookup (c.1, c.2)
        (mkInpaintView source cols rows planes blobs false dv).patches = none := by
      show List.lookup (c.1, c.2) (blobs.foldl (runTask source cols rows false dv) []) = none
      rw [runInpaint_flat_lookup]
      rw [if_neg ?_]
      · rfl
      · rintro ⟨B, hB, hns, hc⟩
        exact hnot B hB hns hc
    rw [pixel_none _ _ _ hl]
    rfl

/-- Witness for c2_flat_replacement: a 10 by 10 image of constant value 1
with the single-pixel defect (5, 5) and default fill 9: the defect reads 9,
the untouched coordinate (0, 0) reads 1. -/
theorem c2_witness :
    (¬ skipCond 10 10 (taskBBox false [((5 : ℤ), (5 : ℤ))])) ∧
    (mkInpaintView (fun _ => (1 : ℚ)) 10 10 1 [[(5, 5)]] false 9).pixel 5 5 = 9 ∧
    (mkInpaintView (fun _ => (1 : ℚ)) 10 10 1 [[(5, 5)]] false 9).pixel 0 0 = 1 :=
  ⟨by decide,
    (c2_flat_replacement (fun _ => (1 : ℚ)) 10 10 1 9 [[(5, 5)]]).1
      [(5, 5)] (by decide) (by decide) (5, 5) (by decide),
    (c2_flat_replacement (fun _ => (1 : ℚ)) 10 10 1 9 [[(5, 5)]]).2
      (0, 0) (by decide)⟩

/-- Counterexample for claim C2 as stated: in flat mode with default fill 7
on a 5 by 5 zero image, the blob containing only (3, 2) has an expanded
window spanning pixels (2, 1) to (4, 3), which lies entirely inside the
image bounds, yet the interior coordinate (3, 2) of that region reads back
the source value 0 rather than the default fill 7, because the task's
bounds test fires on the exclusive maximum 5 >= cols 5 and skips the
region. -/
theorem c2_counterexample :
    ¬ windowOutside 5 5 (taskBBox false [((3 : ℤ), (2 : ℤ))]) ∧
    ((3 : ℤ), (2 : ℤ)) ∈ [((3 : ℤ), (2 : ℤ))] ∧
    (mkInpaintView (fun _ => (0 : ℚ)) 5 5 1 [[(3, 2)]] false 7).pixel 3 2 = 0 ∧
    (0 : ℚ) ≠ 7 := by
  decide

/-- Claim C7: every coordinate the store holds after a run is an interior
coordinate of one of the catalog's defect regions (and of an unskipped one);
window coordinates outside the defect interior are never inserted. -/
theorem c7_store_subset_defects (source : Img) (cols rows planes : ℤ) (ug : Bool)
    (dv : ℚ) (blobs : List (List Coord)) (c : Coord) (v : ℚ)
    (h : List.lookup c (mkInpaintView source cols rows planes blobs ug dv).patches = some v) :
    ∃ B ∈ blobs, ¬ skipCond cols rows (taskBBox ug B) ∧ c ∈ B := by
  have h' : List.lookup c (blobs.foldl (runTask source cols rows ug dv) []) = some v := h
  rcases runInpaint_lookup_some source cols rows ug dv blobs c v [] h' with hex | hnone
  · exact hex
  · simp [List.lookup] at hnone

/-- Witness for c7_store_subset_defects: the store of the concrete flat run
holds (5, 5) with value 9, and (5, 5) indeed belongs to the only blob. -/
theorem c7_witness :
    List.lookup ((5 : ℤ), (5 : ℤ))
      (mkInpaintView (fun _ => (1 : ℚ)) 10 10 1 [[(5, 5)]] false 9).patches = some 9 ∧
    ∃ B ∈ [[((5 : ℤ), (5 : ℤ))]], ¬ skipCond 10 10 (taskBBox false B) ∧
      ((5 : ℤ), (5 : ℤ)) ∈ B :=
  ⟨by decide,
    c7_store_subset_defects (fun _ => (1 : ℚ)) 10 10 1 false 9 [[(5, 5)]] (5, 5) 9 (by decide)⟩

/-- Claim C5 (amended): a task produces no patch exactly when the code's
bounds test fires, which happens when the expanded box has a negative
minimum or an exclusive maximum at or beyond the image extent; for a skipped
region whose coordinates lie in no unskipped region, the overlay returns the
source values. -/
theorem c5_skip_semantics (source : Img) (cols rows planes : ℤ) (ug : Bool) (dv : ℚ)
    (blobs : List (List Coord)) (B : List Coord) (c : Coord)
    (hB : B ∈ blobs) (hskip : skipCond cols rows (taskBBox ug B)) (hc : c ∈ B)
    (hdisj : ∀ B' ∈ blobs, c ∈ B' → skipCond cols rows (taskBBox ug B')) :
    (∀ (s : Store) (blob : List Coord),
      runTask source cols rows ug dv s blob = s ↔ skipCond cols rows (taskBBox ug blob)) ∧
    (mkInpaintView source cols rows planes blobs ug dv).pixel c.1 c.2 = source c := by
  constructor
  · intro s blob
    constructor
    · intro heq
      by_contra hns
      cases blob with
      | nil => exact hns (skip_of_nil cols rows ug)
      | cons c0 rest =>
        have hsh : c0 - (taskBBox ug (c0 :: rest)).1 ∈ taskShifted ug (c0 :: rest) :=
          (sub_mem_taskShifted ug (c0 :: rest) c0).mpr (List.mem_cons_self _ _)
        have hfil : c0 - (taskBBox ug (c0 :: rest)).1 ∈
            (windowCoords (taskW ug (c0 :: rest)) (taskH ug (c0 :: rest))).filter
              (fun p => taskMask ug (c0 :: rest) p != 0) :=
          (mem_maskFilter _ _ _ _).mpr
            ⟨mem_taskShifted_window ug (c0 :: rest) _ hsh,
             (taskMask_ne_iff ug (c0 :: rest) _).mpr hsh⟩
        have habs : runTask source cols rows ug dv s (c0 :: rest) =
            absorb s (taskBBox ug (c0 :: rest)).1 (taskW ug (c0 :: rest))
              (taskH ug (c0 :: rest))
              (if ug then
                diffuseChannel (taskW ug (c0 :: rest)) (taskH ug (c0 :: rest))
                  (taskMask ug (c0 :: rest)) (taskCropped source ug (c0 :: rest))
               else flatFill dv (taskShifted ug (c0 :: rest))
                  (taskCropped source ug (c0 :: rest)))
              (taskMask ug (c0 :: rest)) := by
          unfold runTask
          rw [if_neg hns]
        have hlen := congrArg List.length (habs ▸ heq)
        unfold absorb at hlen
        rw [List.length_append, List.length_map] at hlen
        have hpos : 0 < ((windowCoords (taskW ug (c0 :: rest)) (taskH ug (c0 :: rest))).filter
            (fun p => taskMask ug (c0 :: rest) p != 0)).length :=
          List.length_pos.mpr (List.ne_nil_of_mem hfil)
        omega
    · intro hskip'
      unfold runTask
      rw [if_pos hskip']
  · cases hl : List.lookup (c.1, c.2)
        (mkInpaintView source cols rows planes blobs ug dv).patches with
    | none =>
      rw [pixel_none _ _ _ hl]
      rfl
    | some v =>
      exfalso
      have h' : List.lookup (c.1, c.2) (blobs.foldl (runTask source cols rows ug dv) []) =
          some v := hl
      rcases runInpaint_lookup_some source cols rows ug dv blobs (c.1, c.2) v [] h' with
        hex | hnone
      · obtain ⟨B', hB', hns', hc'⟩ := hex
        exact hns' (hdisj B' hB' hc')
      · simp [List.lookup] at hnone

/-- Witness for c5_skip_semantics: a blob at the image corner whose expanded
window leaves the extent is skipped and its pixel reads the source value 3. -/
theorem c5_witness :
    skipCond 4 4 (taskBBox false [((0 : ℤ), (0 : ℤ))]) ∧
    (∀ (s : Store) (blob : List Coord),
      runTask (fun _ => (3 : ℚ)) 4 4 false 7 s blob = s ↔
        skipCond 4 4 (taskBBox false blob)) ∧
    (mkInpaintView (fun _ => (3 : ℚ)) 4 4 1 [[(0, 0)]] false 7).pixel 0 0 = 3 := by
  have H := c5_skip_semantics (fun _ => (3 : ℚ)) 4 4 1 false 7 [[(0, 0)]] [(0, 0)] (0, 0)
    (by decide) (by decide) (by decide) (by decide)
  exact ⟨by decide, H.1, H.2⟩

/-- Counterexample for claim C5 as stated: with a 5 by 5 image and the blob
containing only (3, 2), the flat-mode expanded window spans columns 2 .. 4
and rows 1 .. 3, entirely inside the image extent, yet the task is skipped
(no patch is produced and the defect pixel keeps its source value), because
the code's test compares the exclusive maximum with >= cols. -/
theorem c5_counterexample :
    ¬ windowOutside 5 5 (taskBBox false [((3 : ℤ), (2 : ℤ))]) ∧
    (∀ s : Store, runTask (fun _ => (0 : ℚ)) 5 5 false 7 s [(3, 2)] = s) ∧
    (mkInpaintView (fun _ => (0 : ℚ)) 5 5 1 [[(3, 2)]] false 7).pixel 3 2 = 0 := by
  refine ⟨by decide, fun s => ?_, by decide⟩
  unfold runTask
  rw [if_pos (by decide : skipCond 5 5 (taskBBox false [((3 : ℤ), (2 : ℤ))]))]

/-- Claim C4: in diffusion mode, the update applied to every listed pixel on
every sweep is the eight-neighbour convolution with weight 0.176765 on each
diagonal neighbour and 0.073235 on each orthogonal neighbour, and for each
channel in turn the full sweep over the ascending-distance order is repeated
exactly 10 times the square of the maximum distance-field value. -/
theorem c4_convolution_and_iteration :
    (∀ (n w h : ℕ) (msk : Coord → ℕ) (img : MImg n),
      diffuseMulti n w h msk img =
        (List.finRange n).foldl
          (fun im c =>
            (sweepM c (processingOrder w h msk))^[10 * maxDistance w h msk ^ 2] im)
          img) ∧
    (∀ (n : ℕ) (c : Fin n) (img : MImg n) (p : Coord),
      convAtM c img p =
        0.176765 * (img (p.1 - 1, p.2 - 1) c + img (p.1 - 1, p.2 + 1) c +
          img (p.1 + 1, p.2 - 1) c + img (p.1 + 1, p.2 + 1) c) +
        0.073235 * (img (p.1 + 1, p.2) c + img (p.1 - 1, p.2) c +
          img (p.1, p.2 + 1) c + img (p.1, p.2 - 1) c)) ∧
    (∀ (n : ℕ) (c : Fin n) (order : List Coord) (img : MImg n),
      sweepM c order img =
        order.foldl (fun im p => updM im p c (convAtM c im p)) img) := by
  refine ⟨?_, ?_, ?_⟩
  · intro n w h msk img
    have hsq : 10 * maxDistance w h msk ^ 2 =
        10 * maxDistance w h msk * maxDistance w h msk := by ring
    rw [hsq]
    rfl
  · intro n c img p
    unfold convAtM
    ring
  · intro n c order img
    rfl

/-- A list all of whose element pairs satisfy a relation is pairwise. -/
theorem pairwise_of_forall_mem {α : Type} (R : α → α → Prop) :
    ∀ l : List α, (∀ a ∈ l, ∀ b ∈ l, R a b) → l.Pairwise R := by
  intro l
  induction l with
  | nil => intro _; exact List.Pairwise.nil
  | cons a t ih =>
    intro h
    refine List.Pairwise.cons ?_ (ih ?_)
    · intro b hb
      exact h a (List.mem_cons_self _ _) b (List.mem_cons_of_mem _ hb)
    · intro x hx y hy
      exact h x (List.mem_cons_of_mem _ hx) y (List.mem_cons_of_mem _ hy)

/-- Concatenating distance-level blocks in increasing level order yields a
list sorted by the distance value. -/
theorem pairwise_level_blocks (ws : List Coord) (f : Coord → ℕ) :
    ∀ n : ℕ,
      ((List.range n).flatMap (fun k => ws.filter (fun p => f p = k + 1))).Pairwise
        (fun p q => f p ≤ f q) := by
  intro n
  induction n with
  | zero => simp
  | succ m ih =>
    rw [List.range_succ, List.flatMap_append, List.pairwise_append]
    refine ⟨ih, ?_, ?_⟩
    · simp only [List.flatMap_cons, List.flatMap_nil, List.append_nil]
      refine pairwise_of_forall_mem _ _ ?_
      intro a ha b hb
      have ha' := (List.mem_filter.mp ha).2
      have hb' := (List.mem_filter.mp hb).2
      have ha2 : f a = m + 1 := by simpa using ha'
      have hb2 : f b = m + 1 := by simpa using hb'
      omega
    · intro a ha b hb
      rw [List.mem_flatMap] at ha
      obtain ⟨k, hk, haf⟩ := ha
      rw [List.mem_range] at hk
      have ha2 : f a = k + 1 := by simpa using (List.mem_filter.mp haf).2
      simp only [List.flatMap_cons, List.flatMap_nil, List.append_nil] at hb
      have hb2 : f b = m + 1 := by simpa using (List.mem_filter.mp hb).2
      omega

/-- Claim C3 (amended): the processing order lists exactly the pixels of
positive distance up to the maximum, grouped in ascending distance order.
The update a sweep applies to such a pixel reads all eight neighbours, at
whatever distance they lie (see c4_convolution_and_iteration), so the claim
that only pixels at strictly smaller distance are read is refuted separately
by c3_counterexample. -/
theorem c3_ascending_order (w h : ℕ) (msk : Coord → ℕ) :
    (processingOrder w h msk).Pairwise
      (fun p q => gfdist w h msk p ≤ gfdist w h msk q) ∧
    (∀ p : Coord, p ∈ processingOrder w h msk ↔
      p ∈ windowCoords w h ∧ 1 ≤ gfdist w h msk p ∧
        gfdist w h msk p ≤ maxDistance w h msk) := by
  constructor
  · exact pairwise_level_blocks (windowCoords w h) (gfdist w h msk) (maxDistance w h msk)
  · intro p
    unfold processingOrder
    rw [List.mem_flatMap]
    constructor
    · rintro ⟨k, hk, hp⟩
      rw [List.mem_range] at hk
      have h1 := (List.mem_filter.mp hp).1
      have h2 : gfdist w h msk p = k + 1 := by simpa using (List.mem_filter.mp hp).2
      exact ⟨h1, by omega, by omega⟩
    · rintro ⟨h1, h2, h3⟩
      refine ⟨gfdist w h msk p - 1, ?_, ?_⟩
      · rw [List.mem_range]
        omega
      · rw [List.mem_filter]
        refine ⟨h1, ?_⟩
        simp only [decide_eq_true_eq]
        omega

set_option maxRecDepth 8000 in
attribute [local semireducible] Rat.add Rat.mul Rat.sub Rat.ofScientific Rat.inv in
/-- Counterexample for claim C3 as stated: over the concrete 4 by 3 window
whose interior pixels (1, 1) and (2, 1) both have distance 1, two initial
windows that agree on every pixel of distance strictly below 1 (that is, on
all valid pixels) but differ at the distance-1 pixel (2, 1) produce
different reconstructed values at the distance-1 pixel (1, 1): the fill of a
pixel at distance d also reads pixels at distance at least d. -/
theorem c3_counterexample :
    (∀ p ∈ windowCoords 4 3, gfdist 4 3 mskC p < gfdist 4 3 mskC (1, 1) →
      imgU p = imgV p) ∧
    diffuseChannel 4 3 mskC imgU (1, 1) ≠ diffuseChannel 4 3 mskC imgV (1, 1) := by
  decide

/-- Lookup in a list that pairs every key of a scan with a computed value. -/
theorem lookup_map_self {β : Type} (f : Coord → β) (l : List Coord) (p : Coord) :
    List.lookup p (l.map fun q => (q, f q)) = if p ∈ l then some (f p) else none := by
  induction l with
  | nil => simp [List.lookup]
  | cons q t ih =>
    rw [List.map_cons, lookup_cons_eq]
    by_cases hq : p = q
    · simp [hq]
    · simp [hq, ih, List.mem_cons]

/-- A nonzero cell of a relaxation round lies in the window on a nonzero
mask value: every round writes 0 at valid cells and nothing elsewhere. -/
theorem gfStep_ne_zero (w h : ℕ) (msk : Coord → ℕ) (g : List (Coord × ℕ)) (p : Coord)
    (hne : gfGet (gfStep w h msk g) p ≠ 0) : p ∈ windowCoords w h ∧ msk p ≠ 0 := by
  unfold gfGet gfStep at hne
  rw [lookup_map_self] at hne
  by_cases hp : p ∈ windowCoords w h
  · rw [if_pos hp] at hne
    refine ⟨hp, ?_⟩
    intro h0
    rw [if_neg (fun hx => hx h0)] at hne
    simp at hne
  · rw [if_neg hp] at hne
    simp at hne

/-- A nonzero cell of the initial field lies in the window on a nonzero
mask value. -/
theorem gfInit_ne_zero (w h : ℕ) (msk : Coord → ℕ) (p : Coord)
    (hne : gfGet (gfInit w h msk) p ≠ 0) : p ∈ windowCoords w h ∧ msk p ≠ 0 := by
  unfold gfGet gfInit at hne
  rw [lookup_map_self] at hne
  by_cases hp : p ∈ windowCoords w h
  · rw [if_pos hp] at hne
    refine ⟨hp, ?_⟩
    intro h0
    rw [if_neg (fun hx => hx h0)] at hne
    simp at hne
  · rw [if_neg hp] at hne
    simp at hne

/-- A pixel of positive distance is an in-window interior pixel. -/
theorem gfdist_pos (w h : ℕ) (msk : Coord → ℕ) (p : Coord)
    (hne : gfdist w h msk p ≠ 0) : p ∈ windowCoords w h ∧ msk p ≠ 0 := by
  unfold gfdist grassfireList at hne
  cases hwh : w * h with
  | zero =>
    rw [hwh, Function.iterate_zero_apply] at hne
    exact gfInit_ne_zero w h msk p hne
  | succ m =>
    rw [hwh, Function.iterate_succ_apply'] at hne
    exact gfStep_ne_zero w h msk _ p hne

/-- Window membership from explicit componentwise bounds. -/
theorem mem_windowCoords_of (w h : ℕ) (x y : ℤ) (h1 : 0 ≤ x) (h2 : x < (w : ℤ))
    (h3 : 0 ≤ y) (h4 : y < (h : ℤ)) : ((x, y) : Coord) ∈ windowCoords w h :=
  (mem_windowCoords w h (x, y)).mpr ⟨h1, h2, h3, h4⟩

/-- In the diffusion task every processed pixel keeps all eight of its
neighbours inside the window: processed pixels are interior, interior
pixels sit at least the 10-pixel margin away from the window border. -/
theorem order_nbrs (blob : List Coord) :
    ∀ p ∈ processingOrder (taskW true blob) (taskH true blob) (taskMask true blob),
      (p.1 - 1, p.2 - 1) ∈ windowCoords (taskW true blob) (taskH true blob) ∧
      (p.1 - 1, p.2 + 1) ∈ windowCoords (taskW true blob) (taskH true blob) ∧
      (p.1 + 1, p.2 - 1) ∈ windowCoords (taskW true blob) (taskH true blob) ∧
      (p.1 + 1, p.2 + 1) ∈ windowCoords (taskW true blob) (taskH true blob) ∧
      (p.1 + 1, p.2) ∈ windowCoords (taskW true blob) (taskH true blob) ∧
      (p.1 - 1, p.2) ∈ windowCoords (taskW true blob) (taskH true blob) ∧
      (p.1, p.2 + 1) ∈ windowCoords (taskW true blob) (taskH true blob) ∧
      (p.1, p.2 - 1) ∈ windowCoords (taskW true blob) (taskH true blob) := by
  intro p hp
  unfold processingOrder at hp
  rw [List.mem_flatMap] at hp
  obtain ⟨k, _, hfil⟩ := hp
  have hgd : gfdist (taskW true blob) (taskH true blob) (taskMask true blob) p = k + 1 := by
    simpa using (List.mem_filter.mp hfil).2
  have hne : gfdist (taskW true blob) (taskH true blob) (taskMask true blob) p ≠ 0 := by
    omega
  have hint := gfdist_pos _ _ _ _ hne
  have hsh : p ∈ taskShifted true blob := (taskMask_ne_iff true blob p).mp hint.2
  have hbd := mem_taskShifted_bounds true blob p hsh
  have hm : taskMargin true = 10 := rfl
  rw [hm] at hbd
  exact ⟨mem_windowCoords_of _ _ _ _ (by omega) (by omega) (by omega) (by omega),
    mem_windowCoords_of _ _ _ _ (by omega) (by omega) (by omega) (by omega),
    mem_windowCoords_of _ _ _ _ (by omega) (by omega) (by omega) (by omega),
    mem_windowCoords_of _ _ _ _ (by omega) (by omega) (by omega) (by omega),
    mem_windowCoords_of _ _ _ _ (by omega) (by omega) (by omega) (by omega),
    mem_windowCoords_of _ _ _ _ (by omega) (by omega) (by omega) (by omega),
    mem_windowCoords_of _ _ _ _ (by omega) (by omega) (by omega) (by omega),
    mem_windowCoords_of _ _ _ _ (by omega) (by omega) (by omega) (by omega)⟩

/-- The convolution of values inside a closed interval stays in the
interval: the eight weights are nonnegative and sum to exactly one. -/
theorem convAt_bounds (img : Img) (p : Coord) (lo hi : ℚ)
    (h1 : lo ≤ img (p.1 - 1, p.2 - 1) ∧ img (p.1 - 1, p.2 - 1) ≤ hi)
    (h2 : lo ≤ img (p.1 - 1, p.2 + 1) ∧ img (p.1 - 1, p.2 + 1) ≤ hi)
    (h3 : lo ≤ img (p.1 + 1, p.2 - 1) ∧ img (p.1 + 1, p.2 - 1) ≤ hi)
    (h4 : lo ≤ img (p.1 + 1, p.2 + 1) ∧ img (p.1 + 1, p.2 + 1) ≤ hi)
    (h5 : lo ≤ img (p.1 + 1, p.2) ∧ img (p.1 + 1, p.2) ≤ hi)
    (h6 : lo ≤ img (p.1 - 1, p.2) ∧ img (p.1 - 1, p.2) ≤ hi)
    (h7 : lo ≤ img (p.1, p.2 + 1) ∧ img (p.1, p.2 + 1) ≤ hi)
    (h8 : lo ≤ img (p.1, p.2 - 1) ∧ img (p.1, p.2 - 1) ≤ hi) :
    lo ≤ convAt img p ∧ convAt img p ≤ hi := by
  unfold convAt
  constructor
  · linarith [h1.1, h2.1, h3.1, h4.1, h5.1, h6.1, h7.1, h8.1]
  · linarith [h1.2, h2.2, h3.2, h4.2, h5.2, h6.2, h7.2, h8.2]

/-- A fold preserves any invariant its steps preserve. -/
theorem foldl_preserve {β α : Type} (P : β → Prop) (f : β → α → β) :
    ∀ l : List α, (∀ b a, a ∈ l → P b → P (f b a)) → ∀ b, P b → P (l.foldl f b) := by
  intro l
  induction l with
  | nil => intro _ b hb; exact hb
  | cons a t ih =>
    intro h b hb
    rw [List.foldl_cons]
    exact ih (fun b' a' ha' hb' => h b' a' (List.mem_cons_of_mem _ ha') hb')
      (f b a) (h b a (List.mem_cons_self _ _) hb)

/-- One sweep keeps every window pixel inside the interval, provided every
processed pixel reads only in-window neighbours. -/
theorem sweep_preserves_bounds (w h : ℕ) (order : List Coord) (lo hi : ℚ)
    (hnbr : ∀ p ∈ order,
      (p.1 - 1, p.2 - 1) ∈ windowCoords w h ∧ (p.1 - 1, p.2 + 1) ∈ windowCoords w h ∧
      (p.1 + 1, p.2 - 1) ∈ windowCoords w h ∧ (p.1 + 1, p.2 + 1) ∈ windowCoords w h ∧
      (p.1 + 1, p.2) ∈ windowCoords w h ∧ (p.1 - 1, p.2) ∈ windowCoords w h ∧
      (p.1, p.2 + 1) ∈ windowCoords w h ∧ (p.1, p.2 - 1) ∈ windowCoords w h)
    (img : Img) (hb : ∀ q ∈ windowCoords w h, lo ≤ img q ∧ img q ≤ hi) :
    ∀ q ∈ windowCoords w h, lo ≤ sweepOnce order img q ∧ sweepOnce order img q ≤ hi := by
  unfold sweepOnce
  refine foldl_preserve (fun im => ∀ q ∈ windowCoords w h, lo ≤ im q ∧ im q ≤ hi)
    (fun im p => setPix im p (convAt im p)) order ?_ img hb
  intro im p hp him
  obtain ⟨m1, m2, m3, m4, m5, m6, m7, m8⟩ := hnbr p hp
  have hcb := convAt_bounds im p lo hi (him _ m1) (him _ m2) (him _ m3) (him _ m4)
    (him _ m5) (him _ m6) (him _ m7) (him _ m8)
  intro q hq
  simp only [setPix]
  by_cases hqp : q = p
  · rw [if_pos hqp]
    exact hcb
  · rw [if_neg hqp]
    exact him q hq

/-- Iterated sweeps keep every window pixel inside the interval. -/
theorem iterate_preserves_bounds (w h : ℕ) (order : List Coord) (lo hi : ℚ)
    (hnbr : ∀ p ∈ order,
      (p.1 - 1, p.2 - 1) ∈ windowCoords w h ∧ (p.1 - 1, p.2 + 1) ∈ windowCoords w h ∧
      (p.1 + 1, p.2 - 1) ∈ windowCoords w h ∧ (p.1 + 1, p.2 + 1) ∈ windowCoords w h ∧
      (p.1 + 1, p.2) ∈ windowCoords w h ∧ (p.1 - 1, p.2) ∈ windowCoords w h ∧
      (p.1, p.2 + 1) ∈ windowCoords w h ∧ (p.1, p.2 - 1) ∈ windowCoords w h) :
    ∀ (k : ℕ) (img : Img), (∀ q ∈ windowCoords w h, lo ≤ img q ∧ img q ≤ hi) →
      ∀ q ∈ windowCoords w h,
        lo ≤ (sweepOnce order)^[k] img q ∧ (sweepOnce order)^[k] img q ≤ hi := by
  intro k
  induction k with
  | zero => intro img hb; exact hb
  | succ m ih =>
    intro img hb
    rw [Function.iterate_succ_apply]
    exact ih (sweepOnce order img) (sweep_preserves_bounds w h order lo hi hnbr img hb)

/-- Claim C8 (amended): in diffusion mode, for an in-bounds defect region,
every window pixel of the reconstruction (interior pixels included) stays
inside any closed interval that contains all of the window's initial pixel
values, defective pixels included, because each update is a convex
combination of current window values.  The stronger statement of the claim,
containment in the interval spanned by the valid pixels alone, is refuted
by c8_counterexample: finitely many sweeps keep a residual contribution of
the initial defective values. -/
theorem c8_convex_bounds (source : Img) (cols rows : ℤ) (blob : List Coord) (lo hi : ℚ)
    (hns : ¬ skipCond cols rows (taskBBox true blob))
    (hbnd : ∀ q ∈ windowCoords (taskW true blob) (taskH true blob),
      lo ≤ taskCropped source true blob q ∧ taskCropped source true blob q ≤ hi) :
    ∀ p ∈ windowCoords (taskW true blob) (taskH true blob),
      lo ≤ diffuseChannel (taskW true blob) (taskH true blob) (taskMask true blob)
          (taskCropped source true blob) p ∧
        diffuseChannel (taskW true blob) (taskH true blob) (taskMask true blob)
          (taskCropped source true blob) p ≤ hi := by
  unfold diffuseChannel
  exact iterate_preserves_bounds (taskW true blob) (taskH true blob)
    (processingOrder (taskW true blob) (taskH true blob) (taskMask true blob)) lo hi
    (order_nbrs blob) _ (taskCropped source true blob) hbnd

set_option maxRecDepth 8000 in
attribute [local semireducible] Rat.add Rat.mul Rat.sub Rat.ofScientific Rat.inv in
/-- Counterexample for claim C8 as stated: on the concrete 4 by 3 window all
valid pixels hold 0, so the range spanned by the valid pixel values is the
single point 0, yet the diffusion result at the interior pixel (1, 1) is
strictly positive: the initial value 1 of the interior pixel (2, 1) keeps a
residual contribution after the finitely many sweeps. -/
theorem c8_counterexample :
    mskC (1, 1) ≠ 0 ∧
    (∀ p ∈ windowCoords 4 3, mskC p = 0 → imgV p = 0) ∧
    0 < diffuseChannel 4 3 mskC imgV (1, 1) := by
  decide

set_option maxRecDepth 40000 in
/-- Witness for c8_convex_bounds: the single-pixel defect (15, 15) in a 40 by
40 constant image of value 3, whose diffusion window is in bounds: every
reconstructed window pixel stays in the interval from 3 to 3. -/
theorem c8_witness :
    (¬ skipCond 40 40 (taskBBox true [((15 : ℤ), (15 : ℤ))])) ∧
    (∀ q ∈ windowCoords (taskW true [((15 : ℤ), (15 : ℤ))])
        (taskH true [((15 : ℤ), (15 : ℤ))]),
      (3 : ℚ) ≤ taskCropped (fun _ => (3 : ℚ)) true [(15, 15)] q ∧
        taskCropped (fun _ => (3 : ℚ)) true [(15, 15)] q ≤ 3) ∧
    (∀ p ∈ windowCoords (taskW true [((15 : ℤ), (15 : ℤ))])
        (taskH true [((15 : ℤ), (15 : ℤ))]),
      (3 : ℚ) ≤ diffuseChannel (taskW true [((15 : ℤ), (15 : ℤ))])
          (taskH true [((15 : ℤ), (15 : ℤ))]) (taskMask true [(15, 15)])
          (taskCropped (fun _ => (3 : ℚ)) true [(15, 15)]) p ∧
        diffuseChannel (taskW true [((15 : ℤ), (15 : ℤ))])
          (taskH true [((15 : ℤ), (15 : ℤ))]) (taskMask true [(15, 15)])
          (taskCropped (fun _ => (3 : ℚ)) true [(15, 15)]) p ≤ 3) :=
  ⟨by decide, by decide,
    c8_convex_bounds (fun _ => (3 : ℚ)) 40 40 [(15, 15)] 3 3 (by decide) (by decide)⟩
